import Mathlib

/-
Verification development for the pbls proto language server core.

The Rust sources are shallowly embedded:
  * document text (Rust `String`, valid UTF-8) is a `List Char` of Unicode
    scalar values; byte offsets are recovered via the UTF-8 encoded size of
    each scalar (`utf8Len`);
  * `lsp_types` positions/changes become plain structures over `Nat`
    (the wire type is `u32`; `u32` subtraction is modelled as the wrapping
    subtraction `u32sub` of release builds);
  * fallible operations return `Option`, and `File::edit` returns an
    `EditResult` distinguishing a returned error (`err`, the `?` path on a
    missing range) from a runtime panic (`panic`, the `String::replace_range`
    precondition failure);
  * the tree-sitter parse tree is an inductive tree of kinded nodes, and the
    static queries of `file.rs` become recursive traversals in document
    (pre-)order.
-/

/-! ### UTF-8 / UTF-16 encoded sizes (Rust `char::len_utf8`, `char::len_utf16`) -/

/-- Number of bytes of the UTF-8 encoding of a scalar value (`char::len_utf8`). -/
def utf8Len (c : Char) : Nat :=
  if c.toNat < 0x80 then 1
  else if c.toNat < 0x800 then 2
  else if c.toNat < 0x10000 then 3
  else 4

/-- Number of UTF-16 code units of a scalar value (`char::len_utf16`). -/
def utf16Len (c : Char) : Nat :=
  if c.toNat < 0x10000 then 1 else 2

/-- Byte length of a text, i.e. Rust `str::len` of the UTF-8 encoding. -/
def utf8Size (s : List Char) : Nat := (s.map utf8Len).sum

/-! ### The edit translation of `src/file.rs` -/

/-- `str::split_inclusive("\n")`: the lines of a text, each keeping its
terminating newline; a final segment without a newline is kept, and an empty
text yields no segments. -/
def splitInclusive : List Char → List (List Char)
  | [] => []
  | c :: rest =>
    if c = '\n' then [c] :: splitInclusive rest
    else
      match splitInclusive rest with
      | [] => [[c]]
      | l :: ls => (c :: l) :: ls

/-- `char_to_byte` from `src/file.rs`: byte offset within `line` obtained by
taking the first `col` scalar values and summing their UTF-8 lengths
(`line.chars().take(char).map(|c| c.len_utf8()).sum()`). -/
def char_to_byte (line : List Char) (col : Nat) : Nat :=
  utf8Size (line.take col)

/-- An LSP position: zero-based line and column (wire type `u32`). -/
structure Pos where
  line : Nat
  character : Nat
deriving DecidableEq

/-- One `lsp_types::TextDocumentContentChangeEvent`. -/
structure Change where
  range : Option (Pos × Pos)
  text : List Char
deriving DecidableEq

/-- Outcome of `File::edit`: the new text, a returned error (missing range),
or a runtime panic (in-place replacement precondition failure). -/
inductive EditResult where
  | ok (text : List Char)
  | err
  | panic
deriving DecidableEq

/-- Wrapping `u32` subtraction, the release-build semantics of
`range.end.line - range.start.line` for `u32` operands below `2^32`. -/
def u32sub (a b : Nat) : Nat :=
  if b ≤ a then a - b else a + 4294967296 - b

/-- The scalar index of the UTF-8 character boundary at byte offset `b` of
`text`, if `b` is a boundary (including the end of text); `none` when `b`
is out of bounds or falls inside a multi-byte encoding. -/
def charIndexAtByte : List Char → Nat → Option Nat
  | _, 0 => some 0
  | [], _ + 1 => none
  | c :: cs, b + 1 =>
    if utf8Len c ≤ b + 1 then (charIndexAtByte cs (b + 1 - utf8Len c)).map (· + 1)
    else none

/-- `String::replace_range(s..e, repl)`: succeeds when `s ≤ e` and both byte
offsets are character boundaries of `text`, otherwise panics (`none`). -/
def replaceRange (text : List Char) (s e : Nat) (repl : List Char) :
    Option (List Char) :=
  if s ≤ e then
    match charIndexAtByte text s, charIndexAtByte text e with
    | some i, some j => some (text.take i ++ repl ++ text.drop j)
    | _, _ => none
  else none

/-- The start byte offset computed by `File::edit` for one change: bytes of
all lines preceding the start line, plus `char_to_byte` within the start
line (0 when the start line is past the end of text). -/
def computeStartByte (text : List Char) (s : Pos) : Nat :=
  let lines := splitInclusive text
  ((lines.take s.line).map utf8Size).sum +
    match (lines.drop s.line).head? with
    | some l => char_to_byte l s.character
    | none => 0

/-- The end byte offset computed by `File::edit` for one change, mirroring
the iterator arithmetic of the source: the running `start_byte`, plus the
bytes of the lines strictly between start and end line (`u32` wrapping
difference of the line numbers), plus the end-line offset, minus the
start-line offset. -/
def computeEndByte (text : List Char) (s e : Pos) : Nat :=
  let lines := splitInclusive text
  let startPre := ((lines.take s.line).map utf8Size).sum
  let startLines := lines.drop s.line
  let startOffset :=
    match startLines.head? with
    | some l => char_to_byte l s.character
    | none => 0
  let d := u32sub e.line s.line
  let midSum := ((startLines.take d).map utf8Size).sum
  let endOffset :=
    match (startLines.drop d).head? with
    | some l => char_to_byte l e.character
    | none => 0
  startPre + startOffset + midSum + endOffset - startOffset

/-- Application of a single change event by `File::edit`: a change without a
range is a returned error; otherwise the translated byte range is replaced
in place. -/
def editOne (text : List Char) (ch : Change) : EditResult :=
  match ch.range with
  | none => .err
  | some (s, e) =>
    match replaceRange text (computeStartByte text s) (computeEndByte text s e)
        ch.text with
    | some t => .ok t
    | none => .panic

/-- `File::edit`: changes are applied left to right over the text produced by
the previous change; the first error or panic aborts the loop. (The final
re-parse of the source never fails: tree-sitter returns `None` only under a
cancellation flag or timeout, which pbls does not set.) -/
def edit (text : List Char) : List Change → EditResult
  | [] => .ok text
  | ch :: rest =>
    match editOne text ch with
    | .ok t => edit t rest
    | r => r

/-- The scalar (character) index corresponding to `computeStartByte`: the
characters of the lines before the start line, plus the clamped column. -/
def startCharIdx (text : List Char) (s : Pos) : Nat :=
  let lines := splitInclusive text
  match (lines.drop s.line).head? with
  | some l => ((lines.take s.line).flatten).length + min s.character l.length
  | none => text.length

/-- The scalar (character) index corresponding to `computeEndByte`. -/
def endCharIdx (text : List Char) (s e : Pos) : Nat :=
  let lines := splitInclusive text
  let d := u32sub e.line s.line
  match (lines.drop (s.line + d)).head? with
  | some l => ((lines.take (s.line + d)).flatten).length + min e.character l.length
  | none => text.length

/-- A change range is ordered when its start does not come after its end in
position order. -/
def Ordered (s e : Pos) : Prop :=
  s.line < e.line ∨ (s.line = e.line ∧ s.character ≤ e.character)

instance : DecidablePred fun p : Pos × Pos => Ordered p.1 p.2 := by
  intro p; unfold Ordered; infer_instance

/-- Modelled from the spec, for comparison with `char_to_byte` (claim C1):
translation "yields a byte offset by advancing through the line's scalar
values, summing their UTF-8 lengths, until the consumed UTF-16 weight equals
the target column", a character outside the BMP weighing two units. -/
def charToByteUtf16 : List Char → Nat → Nat
  | _, 0 => 0
  | [], _ + 1 => 0
  | c :: cs, k + 1 =>
    if utf16Len c ≤ k + 1 then utf8Len c + charToByteUtf16 cs (k + 1 - utf16Len c)
    else 0

/-! ### Dotted-name helpers of `src/file.rs` and `src/workspace.rs` -/

/-- Rust `str::split('.')`: `""` gives `[""]`, separators at the ends give
empty components. -/
def splitDot : List Char → List (List Char)
  | [] => [[]]
  | c :: cs =>
    if c = '.' then [] :: splitDot cs
    else
      match splitDot cs with
      | [] => [[c]]
      | l :: ls => (c :: l) :: ls

/-- Rust `Vec::join(".")` on components. -/
def joinDot : List (List Char) → List Char
  | [] => []
  | [x] => x
  | x :: xs => x ++ '.' :: joinDot xs

/-- Rust `str::strip_prefix`: the remainder of `s` after the pattern `p`,
when `p` is a prefix of `s`. -/
def dropPfx : List Char → List Char → Option (List Char)
  | [], s => some s
  | _ :: _, [] => none
  | p :: ps, c :: cs => if p = c then dropPfx ps cs else none

/-- Rust `str::rsplit_once('.')`: split around the last dot. -/
def rsplitOnceDot : List Char → Option (List Char × List Char)
  | [] => none
  | c :: cs =>
    match rsplitOnceDot cs with
    | some (a, b) => some (c :: a, b)
    | none => if c = '.' then some ([], cs) else none

/-- `relative_name` from `src/file.rs`: shorten dotted `name` relative to
dotted `message`. The prefix is the join of the component-wise agreeing zip
prefix; on full agreement (by byte length) the part after the last dot is
returned; otherwise the prefix and a following dot are stripped, each
falling back to the original `name` (`unwrap_or(name)`). -/
def relative_name (message name : List Char) : List Char :=
  let pfx := joinDot ((((splitDot name).zip (splitDot message)).takeWhile
      (fun p => p.1 == p.2)).map (fun p => p.1))
  if utf8Size pfx = utf8Size name then
    match rsplitOnceDot name with
    | none => name
    | some (_, rest) => rest
  else
    let s1 := (dropPfx pfx name).getD name
    (dropPfx ['.'] s1).getD name

/-- `possible_qualifiers` from `src/workspace.rs`: the ways `to_pkg` may
qualify a name from `from_pkg`, from least to most qualified. -/
def possible_qualifiers (from_pkg to_pkg : List Char) : List (List Char) :=
  if to_pkg = [] then [from_pkg]
  else
    (match dropPfx to_pkg from_pkg with
     | some pkg => [(dropPfx ['.'] pkg).getD pkg]
     | none => []) ++
    (match h : rsplitOnceDot to_pkg with
     | some (parent, _) => possible_qualifiers from_pkg parent
     | none => [from_pkg])
termination_by to_pkg.length
decreasing_by
  have key : ∀ s a b : List Char, rsplitOnceDot s = some (a, b) →
      a.length < s.length := by
    intro s
    induction s with
    | nil => intro a b hab; cases hab
    | cons c cs ih =>
      intro a b hab
      unfold rsplitOnceDot at hab
      cases hcs : rsplitOnceDot cs with
      | some p =>
        obtain ⟨a0, b0⟩ := p
        rw [hcs] at hab
        obtain ⟨h1, h2⟩ : c :: a0 = a ∧ b0 = b := by simpa using hab
        have := ih a0 b0 hcs
        rw [← h1]
        simp only [List.length_cons]
        omega
      | none =>
        rw [hcs] at hab
        by_cases hc : c = '.'
        · simp only [hc, if_pos] at hab
          obtain ⟨h1, h2⟩ : ([] : List Char) = a ∧ cs = b := by simpa using hab
          rw [← h1]
          simp
        · simp [hc] at hab
  exact key _ _ _ h

/-- Component-wise length of the longest common dotted prefix, used to state
the `relative_name` contract. -/
def commonLen : List (List Char) → List (List Char) → Nat
  | a :: as, b :: bs => if a = b then commonLen as bs + 1 else 0
  | _, _ => 0

/-- A well-formed dotted name as a component list: at least one component,
every component non-empty and dot-free. -/
def DottedComponents (l : List (List Char)) : Prop :=
  l ≠ [] ∧ ∀ c ∈ l, c ≠ [] ∧ '.' ∉ c

instance : DecidablePred DottedComponents := by
  intro l; unfold DottedComponents; infer_instance

/-! ### The diagnostics bridge of `src/main.rs` (`parse_diag`, `get_diagnostics`) -/

/-- Rust `str::split_once(c)`: split around the first occurrence of `c`. -/
def splitOnceChar (sep : Char) : List Char → Option (List Char × List Char)
  | [] => none
  | c :: cs =>
    if c = sep then some ([], cs)
    else (splitOnceChar sep cs).map (fun p => (c :: p.1, p.2))

/-- Rust `str::split_once(pat)` for a string pattern: split around the first
occurrence of `pat`. -/
def splitOnceSub (pat : List Char) : List Char → Option (List Char × List Char)
  | [] => (dropPfx pat []).map (fun rest => (([] : List Char), rest))
  | c :: cs =>
    match dropPfx pat (c :: cs) with
    | some rest => some ([], rest)
    | none => (splitOnceSub pat cs).map (fun p => (c :: p.1, p.2))

/-- Rust `err.to_string().split("\\n")`: split on every occurrence of the
two-character escape sequence backslash-n (the error lines of the captured
compiler stderr are embedded in one escaped string). -/
def splitEscN (s : List Char) : List (List Char) :=
  match h : splitOnceSub ['\\', 'n'] s with
  | none => [s]
  | some (a, b) => a :: splitEscN b
termination_by s.length
decreasing_by
  have klen : ∀ p s2 r : List Char, dropPfx p s2 = some r →
      s2.length = p.length + r.length := by
    intro p
    induction p with
    | nil =>
      intro s2 r hr
      cases hr
      simp
    | cons q ps ih =>
      intro s2 r hr
      cases s2 with
      | nil => cases hr
      | cons c cs =>
        by_cases hqc : q = c
        · simp only [dropPfx, if_pos hqc] at hr
          have := ih cs r hr
          simp only [List.length_cons]
          omega
        · simp [dropPfx, hqc] at hr
  have key : ∀ s2 a b : List Char, splitOnceSub ['\\', 'n'] s2 = some (a, b) →
      b.length < s2.length := by
    intro s2
    induction s2 with
    | nil =>
      intro a b hab
      simp [splitOnceSub, dropPfx] at hab
    | cons c cs ih =>
      intro a b hab
      unfold splitOnceSub at hab
      cases hd : dropPfx ['\\', 'n'] (c :: cs) with
      | some rest =>
        rw [hd] at hab
        obtain ⟨h1, h2⟩ : ([] : List Char) = a ∧ rest = b := by simpa using hab
        have := klen _ _ _ hd
        rw [← h2]
        simp only [List.length_cons] at this ⊢
        omega
      | none =>
        rw [hd] at hab
        cases hs : splitOnceSub ['\\', 'n'] cs with
        | none => rw [hs] at hab; cases hab
        | some p =>
          obtain ⟨a0, b0⟩ := p
          rw [hs] at hab
          obtain ⟨h1, h2⟩ : c :: a0 = a ∧ b0 = b := by simpa using hab
          have := ih a0 b0 hs
          rw [← h2]
          simp only [List.length_cons]
          omega
  exact key _ _ _ h

/-- Rust `str::strip_suffix`: remove `suf` from the end of `s` when present. -/
def stripSfx (suf s : List Char) : Option (List Char) :=
  if suf.length ≤ s.length ∧ s.drop (s.length - suf.length) = suf then
    some (s.take (s.length - suf.length))
  else none

/-- Rust `str::replace("\\\"", "\"")`: rewrite every (non-overlapping,
left-to-right) backslash-quote pair to a quote. -/
def replaceEsc : List Char → List Char
  | '\\' :: '"' :: rest => '"' :: replaceEsc rest
  | c :: rest => c :: replaceEsc rest
  | [] => []

/-- Rust `str::parse::<u32>()`: an optional leading `+`, then at least one
ASCII digit, rejecting values of 2^32 or more. -/
def parseU32 (s : List Char) : Option Nat :=
  let s2 := match s with
    | '+' :: rest => rest
    | _ => s
  if s2 ≠ [] ∧ s2.all (fun c => c.isDigit) then
    let v := s2.foldl (fun a c => a * 10 + (c.toNat - '0'.toNat)) 0
    if v < 4294967296 then some v else none
  else none

/-- Diagnostic severity (only `Error` is ever produced). -/
inductive Severity where
  | error
deriving DecidableEq

/-- An `lsp_types::Diagnostic` restricted to the fields `parse_diag` sets:
a zero-based range (line, character pairs), severity, source, message. -/
structure Diag where
  range : (Nat × Nat) × (Nat × Nat)
  severity : Severity
  source : List Char
  message : List Char
deriving DecidableEq

/-- `parse_diag` from `src/main.rs`: split around the first `.proto:`, take
the text before the next `:` as the line number, drop the column before the
following `:`, optionally strip a trailing `."`, unescape `\"`, and build an
Error diagnostic spanning `(line-1, 0)..(line-1, byte length of the error
line)` with source `pbls`. -/
def parse_diag (line : List Char) : Option Diag :=
  (splitOnceSub ".proto:".data line).bind fun p1 =>
  (splitOnceChar ':' p1.2).bind fun p2 =>
  (splitOnceChar ':' p2.2).bind fun p3 =>
  let msg := replaceEsc ((stripSfx ['.', '"'] p3.2).getD p3.2)
  (parseU32 p2.1).bind fun lineno =>
  if utf8Size line < 4294967296 then
    some { range := ((u32sub lineno 1, 0), (u32sub lineno 1, utf8Size line)),
           severity := .error, source := "pbls".data, message := msg }
  else none

/-- The sequential push loop of `get_diagnostics`: the first failing line
aborts the whole computation. -/
def mapMOpt (f : α → Option β) : List α → Option (List β)
  | [] => some []
  | a :: l => (f a).bind fun b => (mapMOpt f l).map fun bs => b :: bs

/-- `get_diagnostics` from `src/main.rs`: split the compiler error text on
literal backslash-n and parse every segment; any non-matching segment makes
the whole operation fail. -/
def get_diagnostics (err : List Char) : Option (List Diag) :=
  mapMOpt parse_diag (splitEscN err)

/-- Modelled from the spec: the "trimmed message" of §4.5, i.e. the message
with surrounding whitespace removed (used to compare against what the code
actually emits). -/
def trimL (s : List Char) : List Char :=
  ((s.dropWhile (fun c => c.isWhitespace)).reverse.dropWhile
    (fun c => c.isWhitespace)).reverse

/-- The shape of a matching compiler error segment:
`<pre>.proto:<line>:<col>:<msgtail>`. -/
def protoLine (p numS colS m : List Char) : List Char :=
  p ++ (".proto:".data ++ (numS ++ ':' :: (colS ++ ':' :: m)))

/-! ### The parse tree and `File::symbols` of `src/file.rs` -/

/-- A tree-sitter named node: kind, source text slice, source range
(abstracted to its byte span), and named children in document order. -/
inductive PNode where
  | node (kind : String) (text : List Char) (range : Nat × Nat)
      (children : List PNode)

/-- The node's kind. -/
def PNode.kind : PNode → String
  | .node k _ _ _ => k

/-- The node's source text (`utf8_text`). -/
def PNode.text : PNode → List Char
  | .node _ t _ _ => t

/-- The node's source range. -/
def PNode.range : PNode → Nat × Nat
  | .node _ _ r _ => r

/-- The node's named children. -/
def PNode.children : PNode → List PNode
  | .node _ _ _ c => c

/-- `file::SymbolKind`. -/
inductive SymKind where
  | message
  | enum
deriving DecidableEq

/-- `file::Symbol`: kind, dotted name, defining node's range. -/
structure PSymbol where
  kind : SymKind
  name : List Char
  range : Nat × Nat
deriving DecidableEq

/-- `File::type_name`: the text of the first named child of kind
`messageName`, `enumName` or `serviceName`. -/
def typeName (n : PNode) : Option (List Char) :=
  (n.children.find? (fun c => c.kind == "messageName" || c.kind == "enumName"
    || c.kind == "serviceName")).map PNode.text

/-- `File::parent_name`, expressed over the ancestor chain (outermost
first): the source walks parent pointers upward collecting the `type_name`
of every `message` ancestor, then reverses and joins with dots, returning
`None` when no ancestor contributed. -/
def parent_name (ancestors : List PNode) : Option (List Char) :=
  let res := (ancestors.filter (fun a => a.kind == "message")).filterMap typeName
  if res = [] then none else some (joinDot res)

/-- One match of the symbols query
`[(message (messageName (ident) @id)) (enum (enumName (ident) @id))] @def`:
a `message`/`enum` node whose name child holds an `ident`, paired with the
ident's text (the source maps kind `message` to `Message` and anything else
the query can match — i.e. `enum` — to `Enum`). -/
def symMatch (n : PNode) : Option (SymKind × List Char) :=
  if n.kind = "message" then
    ((n.children.find? (fun c => c.kind == "messageName")).bind
      (fun nm => nm.children.find? (fun c => c.kind == "ident"))).map
      (fun i => (SymKind.message, i.text))
  else if n.kind = "enum" then
    ((n.children.find? (fun c => c.kind == "enumName")).bind
      (fun nm => nm.children.find? (fun c => c.kind == "ident"))).map
      (fun i => (SymKind.enum, i.text))
  else none

/-- The traversal behind `File::symbols`: query matches arrive in document
(pre-)order; each emits one `Symbol` whose name prefixes the ident text with
`parent_name` of its ancestors when present, and whose range is the
matched node's range. -/
def symbolsAux (anc : List PNode) : List PNode → List PSymbol
  | [] => []
  | n@(.node _ _ _ cs) :: rest =>
    (match symMatch n with
     | some (k, idText) =>
        [⟨k, (match parent_name anc with
              | some pfx => pfx ++ '.' :: idText
              | none => idText), n.range⟩]
     | none => [])
    ++ symbolsAux (anc ++ [n]) cs
    ++ symbolsAux anc rest

/-- `File::symbols` on the root of the tree. -/
def symbols (root : PNode) : List PSymbol := symbolsAux [] [root]

/-- The names of the enclosing messages along an ancestor chain. -/
def ancNames (anc : List PNode) : List (List Char) :=
  (anc.filter (fun a => a.kind == "message")).filterMap typeName

/-- Modelled from the spec, for comparison with `symbols` (claim C2): each
symbol's name is "the dotted path of all enclosing message names followed
by its own identifier" (services contribute nothing), in document order,
with the defining node's range. -/
def symbolsSpecAux (ancN : List (List Char)) : List PNode → List PSymbol
  | [] => []
  | n@(.node _ _ _ cs) :: rest =>
    (match symMatch n with
     | some (k, idText) => [⟨k, joinDot (ancN ++ [idText]), n.range⟩]
     | none => []) ++
    symbolsSpecAux (ancN ++ (if n.kind = "message" then (typeName n).toList
      else [])) cs
    ++ symbolsSpecAux ancN rest

/-- Modelled from the spec: `symbolsSpecAux` from the root. -/
def symbolsSpec (root : PNode) : List PSymbol := symbolsSpecAux [] [root]

/-- Number of `message` and `enum` nodes in a forest. -/
def countMsgEnum : List PNode → Nat
  | [] => 0
  | n@(.node _ _ _ cs) :: rest =>
    (if n.kind = "message" ∨ n.kind = "enum" then 1 else 0)
      + countMsgEnum cs + countMsgEnum rest

/-- Every `message`/`enum` node of the forest matches the symbols query,
i.e. carries its name identifier (true of grammar-produced trees for
well-formed sources). -/
def wellNamedB : List PNode → Bool
  | [] => true
  | n@(.node _ _ _ cs) :: rest =>
    (!(n.kind == "message" || n.kind == "enum") || (symMatch n).isSome)
      && wellNamedB cs && wellNamedB rest

/-- The parse tree of `message Foo { message Bar { message Baz {} } enum E {} }`
(named nodes only, with byte ranges). -/
def exTreeC2 : PNode :=
  .node "source_file" "message Foo { message Bar { message Baz {} } enum E {} }".data
    (0, 56) [
    .node "message" "message Foo { message Bar { message Baz {} } enum E {} }".data
      (0, 56) [
      .node "messageName" "Foo".data (8, 11) [.node "ident" "Foo".data (8, 11) []],
      .node "messageBody" "{ message Bar { message Baz {} } enum E {} }".data
        (12, 56) [
        .node "message" "message Bar { message Baz {} }".data (14, 44) [
          .node "messageName" "Bar".data (22, 25)
            [.node "ident" "Bar".data (22, 25) []],
          .node "messageBody" "{ message Baz {} }".data (26, 44) [
            .node "message" "message Baz {}".data (28, 42) [
              .node "messageName" "Baz".data (36, 39)
                [.node "ident" "Baz".data (36, 39) []],
              .node "messageBody" "{}".data (40, 42) []]]],
        .node "enum" "enum E {}".data (45, 54) [
          .node "enumName" "E".data (50, 51) [.node "ident" "E".data (50, 51) []],
          .node "enumBody" "{}".data (52, 54) []]]]]

/-! ### The workspace of `src/workspace.rs` (`open`, `open_import`) -/

/-- The sequential import-opening recursion of `Workspace::open_import` and
its call sites, over an abstract finite universe of `n` files:
`resolve` is `find_import` composed with `Url::from_file_path` (the first
existing path under the search roots), `imports` gives the import strings of
the file at a URL (reading and parsing are modelled as always succeeding),
and the workspace map is the set of loaded URLs. `openGo ws (name :: rest)`
processes `name` exactly as `open_import` does — unresolvable: skip;
already present: stop; otherwise insert the file and recurse into its
imports — and then continues with `rest` (the caller's `for` loop). The
subtype result records that the workspace only grows, which also bounds the
recursion: each insertion strictly increases the card of the workspace. -/
def openGo {n : Nat} (resolve : String → Option (Fin n))
    (imports : Fin n → List String) :
    (ws : Finset (Fin n)) → List String → {ws2 : Finset (Fin n) // ws ⊆ ws2}
  | ws, [] => ⟨ws, Finset.Subset.refl ws⟩
  | ws, name :: rest =>
    match resolve name with
    | none => openGo resolve imports ws rest
    | some u =>
      if hu : u ∈ ws then openGo resolve imports ws rest
      else
        let r1 := openGo resolve imports (insert u ws) (imports u)
        let r2 := openGo resolve imports r1.val rest
        ⟨r2.val, Finset.Subset.trans
          (Finset.Subset.trans (Finset.subset_insert u ws) r1.property)
          r2.property⟩
termination_by ws l => (n - ws.card, l.length)
decreasing_by
  all_goals simp only [List.length_cons]
  all_goals
    first
      | (apply Prod.Lex.right
         omega)
      | (apply Prod.Lex.left
         have h1 : (insert u ws).card = ws.card + 1 :=
           Finset.card_insert_of_not_mem hu
         have h2 : (insert u ws).card ≤ n := by
           simpa using Finset.card_le_univ (insert u ws)
         first
           | omega
           | (have hsub : (insert u ws).card ≤ r1.val.card :=
                Finset.card_le_card r1.property
              show n - r1.val.card < n - ws.card
              omega))

/-- `Workspace::open_import` on one import name. -/
def open_import {n : Nat} (resolve : String → Option (Fin n))
    (imports : Fin n → List String) (ws : Finset (Fin n)) (name : String) :
    Finset (Fin n) :=
  (openGo resolve imports ws [name]).val

/-- The workspace-map effect of `Workspace::open`: insert the new file, then
`open_import` each of its imports in order. -/
def openW {n : Nat} (resolve : String → Option (Fin n))
    (imports : Fin n → List String) (ws : Finset (Fin n)) (uri : Fin n) :
    Finset (Fin n) :=
  (openGo resolve imports (insert uri ws) (imports uri)).val

/-- `Workspace::open` including its diagnostics result: `protoc::diags` is
computed first (an opaque `Except` value), the file is inserted and its
imports opened regardless, and the diagnostics result is returned last. -/
def openWithDiags {n : Nat} {E D : Type} (resolve : String → Option (Fin n))
    (imports : Fin n → List String) (diags : Except E D) (ws : Finset (Fin n))
    (uri : Fin n) : Except E D × Finset (Fin n) :=
  (diags, (openGo resolve imports (insert uri ws) (imports uri)).val)

/-- A two-file universe with a cyclic import graph: file 0 imports file 1
and file 1 imports file 0. -/
def resolveEx : String → Option (Fin 2) :=
  fun s => if s = "a.proto" then some 0 else if s = "b.proto" then some 1 else none

/-- The imports of the cyclic two-file universe: 0 imports `b.proto` (file
1), 1 imports `a.proto` (file 0). -/
def importsEx : Fin 2 → List String :=
  fun u => if u = 0 then ["b.proto"] else ["a.proto"]

/-! ### Concrete data of the `test_edit_unicode` scenario (claim C1) -/

/-- The buffer of the `test_edit_unicode` unit test; line 1 is
`import "examp𐐀e.proto";` where `𐐀` is U+10400 (4 UTF-8 bytes, 2 UTF-16
code units). -/
def exTextC1 : List Char :=
  ("syntax = \"proto3\";\nimport \"examp𐐀e.proto\";\nimport \"other.proto\";\n").data

/-- The same buffer as its inclusive lines. -/
def exLinesC1 : List (List Char) :=
  ["syntax = \"proto3\";\n".data, "import \"examp𐐀e.proto\";\n".data,
    "import \"other.proto\";\n".data]

/-- What the code produces for the columns 8..15 edit: the seven scalar
values `examp𐐀e` are replaced. -/
def exResultC1 : List Char :=
  ("syntax = \"proto3\";\nimport \"thing.proto\";\nimport \"other.proto\";\n").data

/-- What UTF-16 column counting would produce for the columns 8..15 edit:
only `examp𐐀` (five BMP scalars plus one two-unit scalar) is replaced and
the following `e` survives. -/
def exResultUtf16C1 : List Char :=
  ("syntax = \"proto3\";\nimport \"thinge.proto\";\nimport \"other.proto\";\n").data

/-! ### Lemmas about the edit model -/

theorem utf8Len_pos (c : Char) : 1 ≤ utf8Len c := by
  unfold utf8Len
  split <;> try omega
  split <;> try omega
  split <;> omega

theorem utf8Size_append (a b : List Char) :
    utf8Size (a ++ b) = utf8Size a + utf8Size b := by
  simp [utf8Size]

theorem utf8Size_flatten (L : List (List Char)) :
    utf8Size L.flatten = (L.map utf8Size).sum := by
  induction L with
  | nil => rfl
  | cons l ls ih => simp [List.flatten_cons, utf8Size_append, ih]

theorem splitInclusive_flatten (t : List Char) :
    (splitInclusive t).flatten = t := by
  induction t with
  | nil => rfl
  | cons c rest ih =>
    unfold splitInclusive
    by_cases h : c = '\n'
    · simp [h, List.flatten_cons, ih]
    · simp only [h, if_false]
      rcases hs : splitInclusive rest with - | ⟨l, ls⟩
      · rw [hs] at ih
        simp only [List.flatten_nil] at ih
        simp [← ih]
      · rw [hs] at ih
        simp only [List.flatten_cons] at ih ⊢
        simp [ih]

theorem char_to_byte_eq (l : List Char) (c : Nat) :
    char_to_byte l c = utf8Size (l.take c) := rfl

theorem charIndexAtByte_cons (c : Char) (cs : List Char) (b : Nat) :
    charIndexAtByte (c :: cs) b =
      if b = 0 then some 0
      else if utf8Len c ≤ b then (charIndexAtByte cs (b - utf8Len c)).map (· + 1)
      else none := by
  cases b with
  | zero => rfl
  | succ n => simp [charIndexAtByte]

theorem charIndexAtByte_boundary (t : List Char) (k : Nat) :
    charIndexAtByte t (utf8Size (t.take k)) = some (min k t.length) := by
  induction t generalizing k with
  | nil => simp [charIndexAtByte, utf8Size]
  | cons c cs ih =>
    cases k with
    | zero => simp [charIndexAtByte, utf8Size]
    | succ k =>
      rw [List.take_succ_cons, charIndexAtByte_cons]
      have h1 : 1 ≤ utf8Len c := utf8Len_pos c
      have h2 : utf8Size (c :: cs.take k) = utf8Len c + utf8Size (cs.take k) := by
        simp [utf8Size]
      rw [h2]
      have hne : ¬(utf8Len c + utf8Size (cs.take k) = 0) := by omega
      have hle : utf8Len c ≤ utf8Len c + utf8Size (cs.take k) := by omega
      simp only [hne, if_false, hle, if_true, Nat.add_sub_cancel_left]
      rw [ih]
      simp [Nat.succ_min_succ]

theorem utf8Size_take_mono (t : List Char) {a b : Nat} (h : a ≤ b) :
    utf8Size (t.take a) ≤ utf8Size (t.take b) := by
  rw [show b = a + (b - a) by omega, List.take_add, utf8Size_append]
  omega

theorem boundary_none {ls : List (List Char)} {L : Nat} (h : ls.drop L = []) :
    ((ls.take L).map utf8Size).sum = utf8Size ls.flatten := by
  have hlen : ls.length ≤ L := List.drop_eq_nil_iff.mp h
  rw [List.take_of_length_le hlen, utf8Size_flatten]

theorem boundary_some {ls : List (List Char)} {L : Nat} {l0 : List Char}
    {t : List (List Char)} (c : Nat) (h : ls.drop L = l0 :: t)
    {text : List Char} (ht : ls.flatten = text) :
    ((ls.take L).map utf8Size).sum + char_to_byte l0 c
      = utf8Size (text.take (((ls.take L).flatten).length + min c l0.length)) := by
  have hsplit : text = (ls.take L).flatten ++ (l0 ++ t.flatten) := by
    conv_lhs => rw [← ht, ← List.take_append_drop L ls]
    rw [List.flatten_append, h, List.flatten_cons]
  rw [hsplit, List.take_append]
  have htk : (l0 ++ t.flatten).take (min c l0.length) = l0.take c := by
    rw [List.take_append_of_le_length (by omega), ← List.take_take,
      List.take_length]
  rw [htk, utf8Size_append, utf8Size_flatten, char_to_byte_eq]

theorem computeStartByte_eq (text : List Char) (s : Pos) :
    computeStartByte text s = utf8Size (text.take (startCharIdx text s)) := by
  simp only [computeStartByte, startCharIdx]
  cases hdrop : (splitInclusive text).drop s.line with
  | nil =>
    simp only [hdrop, List.head?_nil, Nat.add_zero]
    rw [boundary_none hdrop, splitInclusive_flatten,
      ← splitInclusive_flatten text, List.take_length, splitInclusive_flatten]
  | cons l0 t =>
    simp only [hdrop, List.head?_cons]
    exact boundary_some s.character hdrop (splitInclusive_flatten text)

theorem computeEndByte_eq (text : List Char) (s e : Pos) :
    computeEndByte text s e = utf8Size (text.take (endCharIdx text s e)) := by
  simp only [computeEndByte, endCharIdx]
  have harith : ∀ a b c d : Nat, a + b + c + d - b = (a + c) + d := by omega
  rw [harith]
  rw [← List.sum_append, ← List.map_append, ← List.take_add, List.drop_drop]
  cases hdrop : (splitInclusive text).drop (s.line + u32sub e.line s.line) with
  | nil =>
    simp only [hdrop, List.head?_nil, Nat.add_zero]
    rw [boundary_none hdrop, splitInclusive_flatten,
      ← splitInclusive_flatten text, List.take_length, splitInclusive_flatten]
  | cons l0 t =>
    simp only [hdrop, List.head?_cons]
    exact boundary_some e.character hdrop (splitInclusive_flatten text)

theorem flatten_take_length_le (L : List (List Char)) (n : Nat) :
    ((L.take n).flatten).length ≤ L.flatten.length := by
  conv_rhs => rw [← List.take_append_drop n L]
  rw [List.flatten_append, List.length_append]
  omega

theorem flatten_take_length_mono (L : List (List Char)) {m n : Nat} (h : m ≤ n) :
    ((L.take m).flatten).length ≤ ((L.take n).flatten).length := by
  rw [show n = m + (n - m) by omega, List.take_add, List.flatten_append,
    List.length_append]
  omega

theorem startCharIdx_le_length (text : List Char) (s : Pos) :
    startCharIdx text s ≤ text.length := by
  simp only [startCharIdx]
  cases hdrop : (splitInclusive text).drop s.line with
  | nil => simp
  | cons l0 t =>
    simp only [List.head?_cons]
    have hsplit : text = ((splitInclusive text).take s.line).flatten ++ (l0 ++ t.flatten) := by
      conv_lhs => rw [← splitInclusive_flatten text,
        ← List.take_append_drop s.line (splitInclusive text)]
      rw [List.flatten_append, hdrop, List.flatten_cons]
    conv_rhs => rw [hsplit]
    rw [List.length_append, List.length_append]
    omega

theorem endCharIdx_le_length (text : List Char) (s e : Pos) :
    endCharIdx text s e ≤ text.length := by
  simp only [endCharIdx]
  cases hdrop : (splitInclusive text).drop (s.line + u32sub e.line s.line) with
  | nil => simp
  | cons l0 t =>
    simp only [List.head?_cons]
    have hsplit : text = ((splitInclusive text).take (s.line + u32sub e.line s.line)).flatten
        ++ (l0 ++ t.flatten) := by
      conv_lhs => rw [← splitInclusive_flatten text,
        ← List.take_append_drop (s.line + u32sub e.line s.line) (splitInclusive text)]
      rw [List.flatten_append, hdrop, List.flatten_cons]
    conv_rhs => rw [hsplit]
    rw [List.length_append, List.length_append]
    omega

theorem u32sub_self (a : Nat) : u32sub a a = 0 := by
  simp [u32sub]

theorem u32sub_of_le {a b : Nat} (h : b ≤ a) : u32sub a b = a - b := by
  simp [u32sub, h]

theorem startCharIdx_le_endCharIdx (text : List Char) {s e : Pos}
    (h : Ordered s e) :
    startCharIdx text s ≤ endCharIdx text s e := by
  rcases h with hlt | ⟨hline, hchar⟩
  · -- start line strictly before end line
    have hd : 1 ≤ u32sub e.line s.line := by
      rw [u32sub_of_le (by omega)]
      omega
    simp only [startCharIdx, endCharIdx]
    cases hdrop : (splitInclusive text).drop s.line with
    | nil =>
      have hlen : (splitInclusive text).length ≤ s.line := List.drop_eq_nil_iff.mp hdrop
      have : (splitInclusive text).drop (s.line + u32sub e.line s.line) = [] := by
        rw [List.drop_eq_nil_iff]
        omega
      simp [this, hdrop]
    | cons l0 t =>
      simp only [hdrop, List.head?_cons]
      have hstep : ((splitInclusive text).take s.line).flatten.length + min s.character l0.length
          ≤ ((splitInclusive text).take (s.line + 1)).flatten.length := by
        rw [List.take_add, List.flatten_append, List.length_append, hdrop]
        simp only [List.take_succ_cons, List.take_zero, List.flatten_cons,
          List.flatten_nil, List.append_nil]
        omega
      cases hdrop2 : (splitInclusive text).drop (s.line + u32sub e.line s.line) with
      | nil =>
        calc ((splitInclusive text).take s.line).flatten.length + min s.character l0.length
            ≤ ((splitInclusive text).take (s.line + 1)).flatten.length := hstep
          _ ≤ (splitInclusive text).flatten.length := flatten_take_length_le _ _
          _ = text.length := by rw [splitInclusive_flatten]
      | cons l1 t1 =>
        simp only [List.head?_cons]
        calc ((splitInclusive text).take s.line).flatten.length + min s.character l0.length
            ≤ ((splitInclusive text).take (s.line + 1)).flatten.length := hstep
          _ ≤ ((splitInclusive text).take (s.line + u32sub e.line s.line)).flatten.length :=
              flatten_take_length_mono _ (by omega)
          _ ≤ _ := by omega
  · -- same line
    simp only [startCharIdx, endCharIdx, hline, u32sub_self, Nat.add_zero]
    rw [← hline]
    cases hdrop : (splitInclusive text).drop s.line with
    | nil => simp
    | cons l0 t =>
      simp only [List.head?_cons]
      omega

theorem editOne_ok (text : List Char) {s e : Pos} (repl : List Char)
    (h : Ordered s e) :
    editOne text ⟨some (s, e), repl⟩ =
      .ok (text.take (startCharIdx text s) ++ repl ++ text.drop (endCharIdx text s e)) := by
  have h1 := charIndexAtByte_boundary text (startCharIdx text s)
  have h2 := charIndexAtByte_boundary text (endCharIdx text s e)
  rw [Nat.min_eq_left (startCharIdx_le_length text s)] at h1
  rw [Nat.min_eq_left (endCharIdx_le_length text s e)] at h2
  have hle : computeStartByte text s ≤ computeEndByte text s e := by
    rw [computeStartByte_eq, computeEndByte_eq]
    exact utf8Size_take_mono text (startCharIdx_le_endCharIdx text h)
  simp only [editOne, replaceRange, computeStartByte_eq, computeEndByte_eq]
  rw [computeStartByte_eq, computeEndByte_eq] at hle
  simp [hle, h1, h2]

theorem edit_characterization (changes : List Change) :
    ∀ text : List Char,
      (∀ ch ∈ changes, ∀ r : Pos × Pos, ch.range = some r → Ordered r.1 r.2) →
      ((edit text changes = .err ↔ ∃ ch ∈ changes, ch.range = none) ∧
        edit text changes ≠ .panic) := by
  induction changes with
  | nil => intro text _; simp [edit]
  | cons ch rest ih =>
    intro text hord
    cases hr : ch.range with
    | none =>
      have h1 : editOne text ch = .err := by simp [editOne, hr]
      constructor
      · simp [edit, h1]
        exact Or.inl hr
      · simp [edit, h1]
    | some r =>
      obtain ⟨s, e⟩ := r
      have hord1 : Ordered s e := hord ch (by simp) (s, e) hr
      have hch : ch = ⟨some (s, e), ch.text⟩ := by
        cases ch
        simp_all
      have h1 := editOne_ok text ch.text hord1
      rw [← hch] at h1
      have hrest := ih (text.take (startCharIdx text s) ++ ch.text
          ++ text.drop (endCharIdx text s e))
        (fun c hc => hord c (by simp [hc]))
      constructor
      · rw [show edit text (ch :: rest)
            = edit (text.take (startCharIdx text s) ++ ch.text
              ++ text.drop (endCharIdx text s e)) rest by simp [edit, h1]]
        rw [hrest.1]
        constructor
        · intro ⟨c, hc, hn⟩
          exact ⟨c, by simp [hc], hn⟩
        · intro ⟨c, hc, hn⟩
          rcases List.mem_cons.mp hc with hceq | hcm
          · rw [hceq] at hn
            rw [hn] at hr
            cases hr
          · exact ⟨c, hcm, hn⟩
      · rw [show edit text (ch :: rest)
            = edit (text.take (startCharIdx text s) ++ ch.text
              ++ text.drop (endCharIdx text s e)) rest by simp [edit, h1]]
        exact hrest.2

theorem take_flatten_split {lines : List (List Char)} {i : Nat} {l0 : List Char}
    {t : List (List Char)} (h : lines.drop i = l0 :: t) (c : Nat) :
    lines.flatten.take (((lines.take i).flatten).length + min c l0.length)
      = (lines.take i).flatten ++ l0.take c := by
  have hsplit : lines.flatten = (lines.take i).flatten ++ (l0 ++ t.flatten) := by
    conv_lhs => rw [← List.take_append_drop i lines]
    rw [List.flatten_append, h, List.flatten_cons]
  rw [hsplit, List.take_append, List.take_append_of_le_length (by omega),
    ← List.take_take, List.take_length]

theorem drop_flatten_split {lines : List (List Char)} {i : Nat} {l0 : List Char}
    {t : List (List Char)} (h : lines.drop i = l0 :: t) (c : Nat) :
    lines.flatten.drop (((lines.take i).flatten).length + min c l0.length)
      = l0.drop c ++ t.flatten := by
  have hsplit : lines.flatten = (lines.take i).flatten ++ (l0 ++ t.flatten) := by
    conv_lhs => rw [← List.take_append_drop i lines]
    rw [List.flatten_append, h, List.flatten_cons]
  rw [hsplit, List.drop_append]
  rcases Nat.le_total c l0.length with hcl | hcl
  · rw [Nat.min_eq_left hcl, List.drop_append_of_le_length hcl]
  · rw [Nat.min_eq_right hcl,
      show l0.length = l0.length + 0 by omega, List.drop_append,
      List.drop_zero, List.drop_eq_nil_of_le hcl, List.nil_append]

theorem replaceRange_shape {text : List Char} {a b : Nat} {repl t : List Char}
    (h : replaceRange text a b repl = some t) :
    ∃ i j : Nat, t = text.take i ++ repl ++ text.drop j := by
  unfold replaceRange at h
  split at h
  · cases h1 : charIndexAtByte text a with
    | none => rw [h1] at h; cases h2 : charIndexAtByte text b <;> rw [h2] at h <;> cases h
    | some i =>
      cases h2 : charIndexAtByte text b with
      | none => rw [h1, h2] at h; cases h
      | some j =>
        rw [h1, h2] at h
        exact ⟨i, j, (Option.some_inj.mp h).symm⟩
  · cases h

/-! ### Claim C1: what unit the edit column counts -/

/-- C1 counterexample: on the `test_edit_unicode` buffer, the change over
columns 8..15 of the line `import "examp𐐀e.proto";` replaces the seven
scalar values `examp𐐀e` (18 bytes from line start), not — as UTF-16
code-unit counting would — only `examp𐐀` (17 bytes): the actual result has
`thing.proto`, while the claimed counting yields `thinge.proto`. -/
theorem c1_counterexample :
    edit exTextC1 [⟨some (⟨1, 8⟩, ⟨1, 15⟩), "thing".data⟩] = .ok exResultC1
    ∧ exResultC1 ≠ exResultUtf16C1
    ∧ char_to_byte "import \"examp𐐀e.proto\";\n".data 15 = 18
    ∧ charToByteUtf16 "import \"examp𐐀e.proto\";\n".data 15 = 17 := by
  refine ⟨by decide, by decide, by decide, by decide⟩

/-- C1 amended: the position-to-byte translation counts the column in
Unicode scalar values (a character outside the BMP contributes one unit,
not two): a same-line change over columns `c1..c2` of line `i` replaces
exactly the scalar values `c1..c2` of that line (columns clamped to the
line length). -/
theorem c1_column_counts_scalars
    (lines : List (List Char)) (i c1 c2 : Nat) (l : List Char)
    (repl : List Char)
    (hl : splitInclusive lines.flatten = lines)
    (hi : lines.drop i = l :: lines.drop (i + 1))
    (hc : c1 ≤ c2) :
    editOne lines.flatten ⟨some (⟨i, c1⟩, ⟨i, c2⟩), repl⟩ =
      .ok ((lines.take i).flatten ++ l.take c1 ++ repl
        ++ (l.drop c2 ++ (lines.drop (i + 1)).flatten)) := by
  have hord : Ordered ⟨i, c1⟩ ⟨i, c2⟩ := Or.inr ⟨rfl, hc⟩
  rw [editOne_ok lines.flatten repl hord]
  have hstart : startCharIdx lines.flatten ⟨i, c1⟩
      = ((lines.take i).flatten).length + min c1 l.length := by
    simp only [startCharIdx, hl, hi, List.head?_cons]
  have hend : endCharIdx lines.flatten ⟨i, c1⟩ ⟨i, c2⟩
      = ((lines.take i).flatten).length + min c2 l.length := by
    simp only [endCharIdx, hl, u32sub_self, Nat.add_zero, hi, List.head?_cons]
  rw [hstart, hend, take_flatten_split hi c1, drop_flatten_split hi c2,
    List.append_assoc]

/-- C1 witness: the amended statement instantiated on the
`test_edit_unicode` buffer reproduces the unit-test result
(`examp𐐀e` becomes `thing`). -/
theorem c1_witness :
    editOne exTextC1 ⟨some (⟨1, 8⟩, ⟨1, 15⟩), "thing".data⟩ = .ok exResultC1 := by
  have h := c1_column_counts_scalars exLinesC1 1 8 15
    ("import \"examp𐐀e.proto\";\n".data) ("thing".data)
    (by decide) (by decide) (by decide)
  rw [show exTextC1 = exLinesC1.flatten from by decide, h]
  decide

/-! ### Claim C5: how an overlong column clamps -/

/-- C5 counterexample: on `"ab\ncd\n"`, a change over columns 0..10 of line 0
computes an end offset of 3 — one past the newline — and so consumes the
line terminator: the result is `"Xcd\n"`, not the `"X\ncd\n"` required by
clamping to the last content byte (offset 2). -/
theorem c5_counterexample :
    edit "ab\ncd\n".data [⟨some (⟨0, 0⟩, ⟨0, 10⟩), "X".data⟩] = .ok "Xcd\n".data
    ∧ "Xcd\n".data ≠ "X\ncd\n".data
    ∧ char_to_byte "ab\n".data 10 = 3
    ∧ utf8Size "ab".data = 2 := by
  refine ⟨by decide, by decide, by decide, by decide⟩

/-- C5 amended: a column at or past the end of a line clamps to the end of
the whole inclusive line — including its terminating newline when present —
so the computed byte offset is the full byte length of the line and an edit
whose end column overshoots consumes the line terminator (witnessed by the
`"ab\ncd\n"` example of the counterexample theorem). -/
theorem c5_clamp_includes_newline (line : List Char) (col : Nat)
    (h : line.length ≤ col) :
    char_to_byte line col = utf8Size line := by
  rw [char_to_byte_eq, List.take_of_length_le h]

/-- C5 witness: clamping column 10 on the inclusive line `"ab\n"` yields its
full three-byte length, newline included. -/
theorem c5_witness : char_to_byte "ab\n".data 10 = utf8Size "ab\n".data :=
  c5_clamp_includes_newline ("ab\n".data) 10 (by decide)

/-! ### Claim C6: when `File::edit` fails -/

/-- C6 counterexample: a change whose range is present and convertible but
reversed (end column before start column on the same line) makes
`File::edit` panic in `String::replace_range` (start byte 2 > end byte 1),
contradicting "for every other input edit neither fails nor panics". -/
theorem c6_counterexample :
    edit "abc\n".data [⟨some (⟨0, 2⟩, ⟨0, 1⟩), "".data⟩] = .panic := by decide

/-- C6 amended: `File::edit` returns an error iff some change event lacks a
range (the `u32`-to-`usize` conversions of in-range line/column values never
fail on a 64-bit host), and it neither fails otherwise nor panics provided
every present range is ordered (start not after end); a reversed same-line
range, however, panics, as the counterexample shows. -/
theorem c6_edit_error_conditions (text : List Char) (changes : List Change)
    (hord : ∀ ch ∈ changes, ∀ r : Pos × Pos, ch.range = some r → Ordered r.1 r.2) :
    ((edit text changes = .err) ↔ ∃ ch ∈ changes, ch.range = none)
    ∧ edit text changes ≠ .panic :=
  edit_characterization changes text hord

/-- C6 witness: a one-change edit with an ordered range neither errs nor
panics. -/
theorem c6_witness :
    ((edit "ab".data [⟨some (⟨0, 0⟩, ⟨0, 1⟩), "x".data⟩] = .err)
      ↔ ∃ ch ∈ [(⟨some (⟨0, 0⟩, ⟨0, 1⟩), "x".data⟩ : Change)], ch.range = none)
    ∧ edit "ab".data [⟨some (⟨0, 0⟩, ⟨0, 1⟩), "x".data⟩] ≠ .panic := by
  apply c6_edit_error_conditions
  intro ch hch r hr
  rcases List.mem_singleton.mp hch with rfl
  cases hr
  exact Or.inr ⟨rfl, by decide⟩

/-! ### Claim C7: edit offsets are UTF-8 character boundaries -/

/-- C7: for every document text and change positions, the start and end byte
offsets computed by `File::edit` fall on UTF-8 character boundaries of the
current text, and every successful in-place replacement splices whole
scalar values (`take i ++ repl ++ drop j`), so the resulting text is again a
sequence of scalar values, i.e. valid UTF-8 — no partial codepoint is ever
written. -/
theorem c7_edit_offsets_are_boundaries (text : List Char) (s e : Pos) :
    (charIndexAtByte text (computeStartByte text s)).isSome
    ∧ (charIndexAtByte text (computeEndByte text s e)).isSome
    ∧ ∀ repl t : List Char, editOne text ⟨some (s, e), repl⟩ = .ok t →
        ∃ i j : Nat, t = text.take i ++ repl ++ text.drop j := by
  refine ⟨?_, ?_, ?_⟩
  · rw [computeStartByte_eq, charIndexAtByte_boundary]
    rfl
  · rw [computeEndByte_eq, charIndexAtByte_boundary]
    rfl
  · intro repl t h
    simp only [editOne] at h
    cases hrr : replaceRange text (computeStartByte text s)
        (computeEndByte text s e) repl with
    | none => rw [hrr] at h; cases h
    | some t2 =>
      rw [hrr] at h
      cases h
      exact replaceRange_shape hrr

/-! ### Lemmas about the dotted-name helpers -/

theorem splitDot_no_dot {x : List Char} (h : '.' ∉ x) : splitDot x = [x] := by
  induction x with
  | nil => rfl
  | cons c cs ih =>
    have hc : ¬(c = '.') := fun hc => h (hc ▸ List.mem_cons_self c cs)
    have hcs : '.' ∉ cs := fun hm => h (List.mem_cons_of_mem c hm)
    simp [splitDot, hc, ih hcs]

theorem splitDot_append_dot {x : List Char} (r : List Char) (h : '.' ∉ x) :
    splitDot (x ++ '.' :: r) = x :: splitDot r := by
  induction x with
  | nil => simp [splitDot]
  | cons c cs ih =>
    have hc : ¬(c = '.') := fun hc => h (hc ▸ List.mem_cons_self c cs)
    have hcs : '.' ∉ cs := fun hm => h (List.mem_cons_of_mem c hm)
    simp only [List.cons_append, splitDot, hc, if_false, List.append_eq, ih hcs]

theorem splitDot_joinDot {l : List (List Char)} (hne : l ≠ [])
    (hdf : ∀ c ∈ l, '.' ∉ c) : splitDot (joinDot l) = l := by
  induction l with
  | nil => exact absurd rfl hne
  | cons x xs ih =>
    cases xs with
    | nil => exact splitDot_no_dot (hdf x (List.mem_cons_self x []))
    | cons y ys =>
      rw [show joinDot (x :: y :: ys) = x ++ '.' :: joinDot (y :: ys) from rfl,
        splitDot_append_dot _ (hdf x (List.mem_cons_self x _)),
        ih (by simp) (fun c hc => hdf c (List.mem_cons_of_mem x hc))]

theorem joinDot_cons {x : List Char} {xs : List (List Char)} (h : xs ≠ []) :
    joinDot (x :: xs) = x ++ '.' :: joinDot xs := by
  cases xs with
  | nil => exact absurd rfl h
  | cons y ys => rfl

theorem joinDot_append {a b : List (List Char)} (ha : a ≠ []) (hb : b ≠ []) :
    joinDot (a ++ b) = joinDot a ++ '.' :: joinDot b := by
  induction a with
  | nil => exact absurd rfl ha
  | cons x xs ih =>
    cases xs with
    | nil => rw [List.singleton_append, joinDot_cons hb]; rfl
    | cons y ys =>
      rw [List.cons_append, joinDot_cons (by simp), joinDot_cons (by simp),
        ih (by simp), List.append_assoc]
      rfl

theorem rsplit_no_dot {x : List Char} (h : '.' ∉ x) : rsplitOnceDot x = none := by
  induction x with
  | nil => rfl
  | cons c cs ih =>
    have hc : ¬(c = '.') := fun hc => h (hc ▸ List.mem_cons_self c cs)
    have hcs : '.' ∉ cs := fun hm => h (List.mem_cons_of_mem c hm)
    simp [rsplitOnceDot, ih hcs, hc]

theorem rsplit_last {x : List Char} (a : List Char) (h : '.' ∉ x) :
    rsplitOnceDot (a ++ '.' :: x) = some (a, x) := by
  induction a with
  | nil => simp [rsplitOnceDot, rsplit_no_dot h]
  | cons c a2 ih => simp [rsplitOnceDot, ih]

theorem dropPfx_append (p r : List Char) : dropPfx p (p ++ r) = some r := by
  induction p with
  | nil => rfl
  | cons c cs ih => simp [dropPfx, ih]

theorem takeWhile_zip_fst (ns : List (List Char)) :
    ∀ bs : List (List Char),
      (((ns.zip bs).takeWhile (fun p => p.1 == p.2)).map (fun p => p.1))
        = ns.take (commonLen ns bs) := by
  induction ns with
  | nil => intro bs; simp
  | cons a as ih =>
    intro bs
    cases bs with
    | nil => simp [commonLen]
    | cons b bs2 =>
      rw [List.zip_cons_cons, List.takeWhile_cons]
      by_cases hab : a = b
      · subst hab
        simp only [beq_self_eq_true, if_true, List.map_cons, ih bs2,
          commonLen, if_pos rfl, List.take_succ_cons]
      · have : ((a, b).1 == (a, b).2) = false := by
          simp [hab]
        simp only [this, Bool.false_eq_true, if_false, List.map_nil, commonLen,
          if_neg hab, List.take_zero]

theorem commonLen_le (ns : List (List Char)) :
    ∀ bs : List (List Char), commonLen ns bs ≤ ns.length := by
  induction ns with
  | nil => intro bs; cases bs <;> simp [commonLen]
  | cons a as ih =>
    intro bs
    cases bs with
    | nil => simp [commonLen]
    | cons b bs2 =>
      by_cases hab : a = b
      · simp only [commonLen, if_pos hab, List.length_cons]
        have := ih bs2
        omega
      · simp [commonLen, hab]

theorem utf8Size_pos {s : List Char} (h : s ≠ []) : 0 < utf8Size s := by
  cases s with
  | nil => exact absurd rfl h
  | cons c cs =>
    have := utf8Len_pos c
    simp only [utf8Size, List.map_cons, List.sum_cons]
    omega

/-! ### Claim C3: the `relative_name` contract -/

/-- C3: for dotted `base` and `name` (non-empty dot-free components),
`relative_name` returns the last component of `name` when the longest
component-wise common prefix is all of `name` (in particular on
`relative_name x x`), and otherwise `name` with the common component prefix
dropped — which is `name` unchanged when no component is shared. -/
theorem c3_relative_name_spec (bs ns : List (List Char))
    (hbs : DottedComponents bs) (hns : DottedComponents ns) :
    relative_name (joinDot bs) (joinDot ns)
      = if commonLen ns bs = ns.length
        then ns.getLastD []
        else joinDot (ns.drop (commonLen ns bs)) := by
  obtain ⟨hbne, hbsc⟩ := hbs
  obtain ⟨hnne, hnsc⟩ := hns
  simp only [relative_name]
  rw [splitDot_joinDot hnne (fun c hc => (hnsc c hc).2),
    splitDot_joinDot hbne (fun c hc => (hbsc c hc).2),
    takeWhile_zip_fst]
  by_cases hkn : commonLen ns bs = ns.length
  · rw [hkn, List.take_length, if_pos rfl, if_pos rfl]
    obtain ⟨l, x, hlx⟩ : ∃ l x, ns = l ++ [x] :=
      ⟨ns.dropLast, ns.getLast hnne, (List.dropLast_append_getLast hnne).symm⟩
    have hxdf : '.' ∉ x := by
      have hxm : x ∈ ns := by rw [hlx]; simp
      exact (hnsc x hxm).2
    cases l with
    | nil =>
      rw [hlx]
      simp only [List.nil_append]
      rw [show joinDot [x] = x from rfl, rsplit_no_dot hxdf]
      rw [show ([x] : List (List Char)) = [] ++ [x] from rfl, List.getLastD_concat]
    | cons y l2 =>
      rw [hlx, joinDot_append (by simp) (by simp),
        show joinDot [x] = x from rfl, rsplit_last _ hxdf, List.getLastD_concat]
  · rw [if_neg hkn]
    have hklt : commonLen ns bs < ns.length :=
      lt_of_le_of_ne (commonLen_le ns bs) hkn
    have hdropne : ns.drop (commonLen ns bs) ≠ [] := by
      rw [Ne, List.drop_eq_nil_iff]
      omega
    cases hk0 : commonLen ns bs with
    | zero =>
      rw [hk0] at hdropne
      simp only [List.take_zero, List.drop_zero] at hdropne ⊢
      have hnname : joinDot ns ≠ [] := by
        cases ns with
        | nil => exact absurd rfl hnne
        | cons c0 rest =>
          have hc0 : c0 ≠ [] := (hnsc c0 (List.mem_cons_self c0 rest)).1
          cases rest with
          | nil => exact hc0
          | cons r rs =>
            rw [joinDot_cons (by simp)]
            intro hcontra
            exact hc0 (List.append_eq_nil.mp hcontra).1
      have hcond : ¬(utf8Size (joinDot ([] : List (List Char)))
          = utf8Size (joinDot ns)) := by
        have h0 : utf8Size (joinDot ([] : List (List Char))) = 0 := rfl
        have := utf8Size_pos hnname
        omega
      rw [if_neg hcond]
      simp only [joinDot]
      rw [show dropPfx [] (joinDot ns) = some (joinDot ns) from rfl]
      simp only [Option.getD_some]
      cases ns with
      | nil => exact absurd rfl hnne
      | cons c0 rest =>
        have hc0 : c0 ≠ [] := (hnsc c0 (List.mem_cons_self c0 rest)).1
        have hc0df : '.' ∉ c0 := (hnsc c0 (List.mem_cons_self c0 rest)).2
        obtain ⟨ch, c0t, rfl⟩ : ∃ ch c0t, c0 = ch :: c0t := by
          cases c0 with
          | nil => exact absurd rfl hc0
          | cons ch c0t => exact ⟨ch, c0t, rfl⟩
        have hch : ¬('.' = ch) := by
          intro hcontra
          exact hc0df (hcontra ▸ List.mem_cons_self ch c0t)
        obtain ⟨tail, htail⟩ :
            ∃ tail, joinDot ((ch :: c0t) :: rest) = ch :: tail := by
          cases rest with
          | nil => exact ⟨c0t, rfl⟩
          | cons r rs => exact ⟨c0t ++ '.' :: joinDot (r :: rs), rfl⟩
        rw [htail]
        rw [show dropPfx ['.'] (ch :: tail)
            = if '.' = ch then dropPfx [] tail else none from rfl, if_neg hch]
        rfl
    | succ k2 =>
      rw [hk0] at hdropne hklt
      have htake_ne : ns.take (k2 + 1) ≠ [] := by
        cases ns with
        | nil => exact absurd rfl hnne
        | cons c0 rest => simp [List.take_succ_cons]
      have hsplitname : joinDot ns
          = joinDot (ns.take (k2 + 1)) ++ '.' :: joinDot (ns.drop (k2 + 1)) := by
        conv_lhs => rw [← List.take_append_drop (k2 + 1) ns]
        rw [joinDot_append htake_ne hdropne]
      have hcond : ¬(utf8Size (joinDot (ns.take (k2 + 1)))
          = utf8Size (joinDot ns)) := by
        rw [hsplitname, utf8Size_append]
        have : 0 < utf8Size ('.' :: joinDot (ns.drop (k2 + 1))) :=
          utf8Size_pos (by simp)
        omega
      rw [if_neg hcond]
      conv_lhs => rw [hsplitname]
      rw [dropPfx_append]
      simp only [Option.getD_some]
      rw [show dropPfx ['.'] ('.' :: joinDot (ns.drop (k2 + 1)))
          = some (joinDot (ns.drop (k2 + 1))) from rfl]
      rfl

/-! ### Claim C4: the `possible_qualifiers` contract -/

/-- C4: `possible_qualifiers` always returns a non-empty list whose last
element is `from_pkg` (the recursion pushes partial qualifications and
appends the unqualified `from_pkg` when `to_pkg` runs out of parents), and
on the oracle input `("foo.bar.baz", "foo.bar")` it returns
`["baz", "bar.baz", "foo.bar.baz"]`. -/
theorem c4_possible_qualifiers_spec :
    (∀ f t : List Char, possible_qualifiers f t ≠ []
      ∧ (possible_qualifiers f t).getLast? = some f)
    ∧ possible_qualifiers "foo.bar.baz".data "foo.bar".data
      = ["baz".data, "bar.baz".data, "foo.bar.baz".data] := by
  constructor
  · intro f t
    induction t using possible_qualifiers.induct f with
    | case1 =>
      rw [possible_qualifiers.eq_def, if_pos rfl]
      simp
    | case2 x hx ih =>
      rw [possible_qualifiers.eq_def, if_neg hx]
      generalize (match dropPfx x f with
        | some pkg => [(dropPfx ['.'] pkg).getD pkg]
        | none => ([] : List (List Char))) = resA
      split
      next parent snd heq =>
        obtain ⟨hne, hlast⟩ := ih parent snd heq
        constructor
        · intro hcontra
          exact hne (List.append_eq_nil.mp hcontra).2
        · rw [List.getLast?_append, hlast]
          rfl
      next heq =>
        constructor
        · intro hcontra
          simpa using (List.append_eq_nil.mp hcontra).2
        · rw [List.getLast?_append]
          rfl
  · rw [possible_qualifiers.eq_def, if_neg (by decide)]
    rw [show (match dropPfx "foo.bar".data "foo.bar.baz".data with
        | some pkg => [(dropPfx ['.'] pkg).getD pkg]
        | none => ([] : List (List Char))) = ["baz".data] from by decide]
    split
    next p x heq =>
      have h2 : rsplitOnceDot "foo.bar".data = some ("foo".data, "bar".data) := by
        decide
      rw [heq] at h2
      obtain ⟨rfl, rfl⟩ : p = "foo".data ∧ x = "bar".data := by
        simpa using h2
      rw [possible_qualifiers.eq_def, if_neg (by decide)]
      rw [show (match dropPfx "foo".data "foo.bar.baz".data with
          | some pkg => [(dropPfx ['.'] pkg).getD pkg]
          | none => ([] : List (List Char))) = ["bar.baz".data] from by decide]
      split
      next p2 x2 heq2 =>
        have h4 : rsplitOnceDot "foo".data = none := by decide
        rw [h4] at heq2
        cases heq2
      next heq2 => decide
    next heq => exact absurd heq (by decide)

/-- C3 witness: the oracle instances, each obtained from the general
`relative_name` contract at concrete dotted inputs. -/
theorem c3_witness :
    relative_name "Foo".data "Foo.Bar.Baz".data = "Bar.Baz".data
    ∧ relative_name "Foo.Bar.Baz".data "Foo.Bar".data = "Bar".data
    ∧ relative_name "Foo.Bar.Baz".data "Biz.Bar.Baz".data = "Biz.Bar.Baz".data
    ∧ relative_name "Foo.Bar".data "Foo.Bar".data = "Bar".data := by
  refine ⟨?_, ?_, ?_, ?_⟩
  · have h := c3_relative_name_spec ["Foo".data]
      ["Foo".data, "Bar".data, "Baz".data] (by decide) (by decide)
    rw [show "Foo".data = joinDot ["Foo".data] from by decide,
      show "Foo.Bar.Baz".data = joinDot ["Foo".data, "Bar".data, "Baz".data]
        from by decide, h]
    decide
  · have h := c3_relative_name_spec ["Foo".data, "Bar".data, "Baz".data]
      ["Foo".data, "Bar".data] (by decide) (by decide)
    rw [show "Foo.Bar.Baz".data = joinDot ["Foo".data, "Bar".data, "Baz".data]
        from by decide,
      show "Foo.Bar".data = joinDot ["Foo".data, "Bar".data] from by decide, h]
    decide
  · have h := c3_relative_name_spec ["Foo".data, "Bar".data, "Baz".data]
      ["Biz".data, "Bar".data, "Baz".data] (by decide) (by decide)
    rw [show "Foo.Bar.Baz".data = joinDot ["Foo".data, "Bar".data, "Baz".data]
        from by decide,
      show "Biz.Bar.Baz".data = joinDot ["Biz".data, "Bar".data, "Baz".data]
        from by decide, h]
    decide
  · have h := c3_relative_name_spec ["Foo".data, "Bar".data]
      ["Foo".data, "Bar".data] (by decide) (by decide)
    rw [show "Foo.Bar".data = joinDot ["Foo".data, "Bar".data] from by decide, h]
    decide

/-! ### Claim C9: the diagnostics bridge -/

theorem dropPfx_some_imp {p : List Char} :
    ∀ {s r : List Char}, dropPfx p s = some r → s = p ++ r := by
  induction p with
  | nil =>
    intro s r h
    cases h
    rfl
  | cons q ps ih =>
    intro s r h
    cases s with
    | nil => cases h
    | cons c cs =>
      by_cases hqc : q = c
      · simp only [dropPfx, if_pos hqc] at h
        rw [← hqc, List.cons_append, ← ih h]
      · simp [dropPfx, hqc] at h

theorem splitOnceChar_at {sep : Char} (a b : List Char) (h : sep ∉ a) :
    splitOnceChar sep (a ++ sep :: b) = some (a, b) := by
  induction a with
  | nil => simp [splitOnceChar]
  | cons c a2 ih =>
    have hc : ¬(c = sep) := fun hcontra => h (hcontra ▸ List.mem_cons_self c a2)
    have ha2 : sep ∉ a2 := fun hm => h (List.mem_cons_of_mem c hm)
    simp [splitOnceChar, hc, ih ha2]

theorem splitOnceSub_proto (rest : List Char) :
    ∀ p : List Char, ':' ∉ p →
      splitOnceSub ".proto:".data (p ++ (".proto:".data ++ rest))
        = some (p, rest) := by
  intro p
  induction p with
  | nil =>
    intro _
    have hd : dropPfx ".proto:".data
        ('.' :: ("proto:".data ++ rest)) = some rest := dropPfx_append _ _
    rw [show ([] : List Char) ++ (".proto:".data ++ rest)
        = '.' :: ("proto:".data ++ rest) from rfl]
    unfold splitOnceSub
    rw [hd]
  | cons c p2 ih =>
    intro hp
    have hp2 : ':' ∉ p2 := fun hm => hp (List.mem_cons_of_mem c hm)
    have hcp : ':' ∉ c :: p2 := hp
    rw [show (c :: p2) ++ (".proto:".data ++ rest)
        = c :: (p2 ++ (".proto:".data ++ rest)) from rfl]
    unfold splitOnceSub
    cases hd : dropPfx ".proto:".data (c :: (p2 ++ (".proto:".data ++ rest))) with
    | some r =>
      exfalso
      have heq : c :: (p2 ++ (".proto:".data ++ rest)) = ".proto:".data ++ r :=
        dropPfx_some_imp hd
      have hidx := congrArg (List.indexOf ':') heq
      rw [show c :: (p2 ++ (".proto:".data ++ rest))
          = (c :: p2) ++ (".proto".data ++ ':' :: ("".data ++ rest)) from rfl] at hidx
      rw [show (".proto:".data ++ r) = ".proto".data ++ ':' :: r from rfl] at hidx
      rw [List.indexOf_append_of_not_mem hcp,
        List.indexOf_append_of_not_mem (by decide),
        List.indexOf_append_of_not_mem (by decide)] at hidx
      simp only [List.indexOf_cons_self] at hidx
      simp only [List.length_cons] at hidx
      omega
    | none =>
      rw [ih hp2]
      rfl

theorem mapMOpt_eq_none {α β : Type} {f : α → Option β} {x : α} :
    ∀ {l : List α}, x ∈ l → f x = none → mapMOpt f l = none := by
  intro l
  induction l with
  | nil => intro hx; cases hx
  | cons a l2 ih =>
    intro hx hfx
    rcases List.mem_cons.mp hx with rfl | hmem
    · simp [mapMOpt, hfx]
    · cases hfa : f a with
      | none => simp [mapMOpt, hfa]
      | some b => simp [mapMOpt, hfa, ih hmem hfx]

/-- C9 counterexample: on the matching error line `foo.proto:4:13: bad error.`
the emitted message is the raw text after the second colon — it keeps its
leading space and bare trailing period — so it is not invariant under
whitespace trimming, i.e. it is not "the trimmed message". -/
theorem c9_counterexample :
    (parse_diag "foo.proto:4:13: bad error.".data).map Diag.message
      = some " bad error.".data
    ∧ trimL " bad error.".data ≠ " bad error.".data := by
  constructor
  · decide
  · decide

/-- C9 amended: for each error segment of the shape
`<pre>.proto:<line>:<col>:<msgtail>` (first `.proto:` at the end of `pre`,
no colons inside the pieces, `<line>` a positive `u32`), `parse_diag` emits
an Error diagnostic with zero-based range `(line-1, 0)..(line-1, byte length
of the whole segment)`, source `pbls`, and as message the raw `<msgtail>`
(everything after the second colon, leading whitespace kept) with a trailing
`."` removed when present and `\"` unescaped; the compiler output is split
on the literal two-character sequence backslash-n, and any segment not of
this shape makes `get_diagnostics` fail as a whole. -/
theorem c9_diagnostics_bridge :
    (∀ (p numS colS m : List Char) (n : Nat),
      ':' ∉ p → ':' ∉ numS → ':' ∉ colS →
      parseU32 numS = some n → 1 ≤ n →
      utf8Size (protoLine p numS colS m) < 4294967296 →
      parse_diag (protoLine p numS colS m)
        = some ⟨((n - 1, 0), (n - 1, utf8Size (protoLine p numS colS m))),
            .error, "pbls".data, replaceEsc ((stripSfx ['.', '"'] m).getD m)⟩)
    ∧ (∀ s l : List Char, l ∈ splitEscN s → parse_diag l = none →
        get_diagnostics s = none) := by
  constructor
  · intro p numS colS m n hp hnum hcol hn hn1 hlen
    unfold protoLine at hlen ⊢
    unfold parse_diag
    rw [splitOnceSub_proto _ p hp]
    simp only [Option.some_bind]
    rw [splitOnceChar_at numS (colS ++ ':' :: m) hnum]
    simp only [Option.some_bind]
    rw [splitOnceChar_at colS m hcol]
    simp only [Option.some_bind, hn, if_pos hlen]
    rw [u32sub_of_le hn1]
  · intro s l hl hnone
    exact mapMOpt_eq_none hl hnone

/-- C9 witness: the shape theorem instantiated on
`foo.proto:4:13: msg."` (21 bytes), with the trailing `."` stripped. -/
theorem c9_witness :
    parse_diag "foo.proto:4:13: msg.\"".data
      = some ⟨((3, 0), (3, 21)), .error, "pbls".data, " msg".data⟩ := by
  have h := c9_diagnostics_bridge.1 "foo".data "4".data "13".data
    " msg.\"".data 4 (by decide) (by decide) (by decide) (by decide)
    (by decide) (by decide)
  rw [show "foo.proto:4:13: msg.\"".data
      = protoLine "foo".data "4".data "13".data " msg.\"".data
    from by decide, h]
  decide

/-! ### Claim C2: the `File::symbols` contract -/

theorem parent_name_emission (anc : List PNode) (idText : List Char) :
    (match parent_name anc with
     | some pfx => pfx ++ '.' :: idText
     | none => idText) = joinDot (ancNames anc ++ [idText]) := by
  unfold parent_name ancNames
  by_cases h : ((anc.filter (fun a => a.kind == "message")).filterMap typeName)
      = []
  · simp [h]
    rfl
  · simp only [h, if_neg h]
    rw [joinDot_append h (by simp)]
    rfl

theorem ancNames_append_node (anc : List PNode) (n : PNode) :
    ancNames (anc ++ [n]) = ancNames anc
      ++ (if n.kind = "message" then (typeName n).toList else []) := by
  unfold ancNames
  rw [List.filter_append, List.filterMap_append]
  congr 1
  by_cases h : n.kind = "message"
  · simp only [List.filter_cons, List.filter_nil, h, beq_self_eq_true,
      if_pos, List.filterMap_cons, List.filterMap_nil, if_pos h]
    cases typeName n <;> simp
  · have hb : (n.kind == "message") = false := by
      simp [h]
    simp [List.filter_cons, hb, h]

theorem symbolsAux_eq_spec (anc : List PNode) (forest : List PNode) :
    symbolsAux anc forest = symbolsSpecAux (ancNames anc) forest := by
  induction anc, forest using symbolsAux.induct with
  | case1 anc => simp [symbolsAux, symbolsSpecAux]
  | case2 anc k t r cs rest ihc ihr =>
    cases hsm : symMatch (.node k t r cs) with
    | none =>
      simp only [symbolsAux, symbolsSpecAux, hsm]
      rw [ihc, ihr, ancNames_append_node]
    | some p =>
      obtain ⟨k2, id2⟩ := p
      simp only [symbolsAux, symbolsSpecAux, hsm]
      rw [ihc, ihr, ancNames_append_node, parent_name_emission anc id2]

theorem symbolsAux_length (forest : List PNode) :
    ∀ anc : List PNode, wellNamedB forest = true →
      (symbolsAux anc forest).length = countMsgEnum forest := by
  induction forest using countMsgEnum.induct with
  | case1 =>
    intro anc _
    simp [symbolsAux, countMsgEnum]
  | case2 k t r cs rest ihc ihr =>
    intro anc hwf
    simp only [wellNamedB, Bool.and_eq_true] at hwf
    obtain ⟨⟨hn, hcs⟩, hrest⟩ := hwf
    simp only [symbolsAux, countMsgEnum, List.length_append]
    rw [ihc _ hcs, ihr _ hrest]
    by_cases hk : PNode.kind (.node k t r cs) = "message"
        ∨ PNode.kind (.node k t r cs) = "enum"
    · rw [if_pos hk]
      have hsome : (symMatch (.node k t r cs)).isSome = true := by
        rcases Bool.or_eq_true _ _ |>.mp hn with hfalse | hs
        · exfalso
          rw [Bool.not_eq_true', Bool.or_eq_false_iff] at hfalse
          rcases hk with h1 | h1
          · have := hfalse.1
            simp [h1] at this
          · have := hfalse.2
            simp [h1] at this
        · exact hs
      obtain ⟨p, hp⟩ := Option.isSome_iff_exists.mp hsome
      obtain ⟨k2, id2⟩ := p
      rw [hp]
      simp only [List.length_singleton]
    · rw [if_neg hk]
      have hnone : symMatch (.node k t r cs) = none := by
        push_neg at hk
        unfold symMatch
        rw [if_neg hk.1, if_neg hk.2]
      rw [hnone]
      simp only [List.length_nil]

/-- C2: `File::symbols` agrees with the spec reading — every query match (a
`message`/`enum` node with its name identifier) yields one Symbol, in
document (pre-)order, named by the dotted path of its enclosing message
names followed by its own identifier (service names contribute nothing),
with the defining node's source range; on trees where every `message`/`enum`
node carries its name the count is exactly one symbol per such node; and on
the tree of `message Foo { message Bar { message Baz {} } enum E {} }` the
name sequence is `Foo, Foo.Bar, Foo.Bar.Baz, Foo.E`. -/
theorem c2_symbols_contract :
    (∀ root : PNode, symbols root = symbolsSpec root)
    ∧ (∀ root : PNode, wellNamedB [root] = true →
        (symbols root).length = countMsgEnum [root])
    ∧ symbols exTreeC2 =
      [⟨.message, "Foo".data, (0, 56)⟩,
       ⟨.message, "Foo.Bar".data, (14, 44)⟩,
       ⟨.message, "Foo.Bar.Baz".data, (28, 42)⟩,
       ⟨.enum, "Foo.E".data, (45, 54)⟩] := by
  refine ⟨?_, ?_, ?_⟩
  · intro root
    unfold symbols symbolsSpec
    have h := symbolsAux_eq_spec [] [root]
    rwa [show ancNames [] = [] from rfl] at h
  · intro root h
    exact symbolsAux_length [root] [] h
  · simp only [symbols, exTreeC2, symbolsAux]
    decide

/-- C2 witness: the per-node count statement instantiated on the example
tree (four message/enum nodes, four symbols). -/
theorem c2_witness : (symbols exTreeC2).length = countMsgEnum [exTreeC2] :=
  c2_symbols_contract.2.1 exTreeC2 (by
    simp only [wellNamedB, exTreeC2]
    decide)

/-! ### Claims C8 and C10: workspace opening -/

theorem openGo_nil {n : Nat} (resolve : String → Option (Fin n))
    (imports : Fin n → List String) (ws : Finset (Fin n)) :
    (openGo resolve imports ws []).val = ws := by
  simp only [openGo]

theorem openGo_cons_none {n : Nat} {resolve : String → Option (Fin n)}
    (imports : Fin n → List String) {name : String} (rest : List String)
    (ws : Finset (Fin n)) (h : resolve name = none) :
    (openGo resolve imports ws (name :: rest)).val
      = (openGo resolve imports ws rest).val := by
  simp only [openGo]
  rw [h]

theorem openGo_cons_mem {n : Nat} {resolve : String → Option (Fin n)}
    (imports : Fin n → List String) {name : String} (rest : List String)
    {ws : Finset (Fin n)} {u : Fin n} (h : resolve name = some u)
    (hu : u ∈ ws) :
    (openGo resolve imports ws (name :: rest)).val
      = (openGo resolve imports ws rest).val := by
  simp only [openGo]
  rw [h]
  simp only [hu, dif_pos]

theorem openGo_cons_new {n : Nat} {resolve : String → Option (Fin n)}
    (imports : Fin n → List String) {name : String} (rest : List String)
    {ws : Finset (Fin n)} {u : Fin n} (h : resolve name = some u)
    (hu : u ∉ ws) :
    (openGo resolve imports ws (name :: rest)).val
      = (openGo resolve imports
          (openGo resolve imports (insert u ws) (imports u)).val rest).val := by
  simp only [openGo]
  rw [h]
  simp only [hu, dif_neg, not_false_iff]

/-- C8: `Workspace::open_import` (and hence `Workspace::open`) terminates on
every finite file universe, cyclic import graphs included — in this shallow
embedding `openGo` is total by construction, its recursion bounded because
every recursive descent first inserts a previously absent file. The claimed
mechanism is verified: an already-present resolved URL returns the map
unchanged; the map only ever grows; `open` starts from the newly inserted
file; and on the two-file mutually-cyclic universe `openW` terminates with
both files loaded. -/
theorem c8_open_import_terminates :
    (∀ {n : Nat} (resolve : String → Option (Fin n))
      (imports : Fin n → List String) (ws : Finset (Fin n)) (name : String)
      (u : Fin n), resolve name = some u → u ∈ ws →
        open_import resolve imports ws name = ws)
    ∧ (∀ {n : Nat} (resolve : String → Option (Fin n))
        (imports : Fin n → List String) (ws : Finset (Fin n)) (name : String),
        ws ⊆ open_import resolve imports ws name)
    ∧ (∀ {n : Nat} (resolve : String → Option (Fin n))
        (imports : Fin n → List String) (ws : Finset (Fin n)) (uri : Fin n),
        insert uri ws ⊆ openW resolve imports ws uri)
    ∧ openW resolveEx importsEx ∅ 0 = {0, 1} := by
  refine ⟨?_, ?_, ?_, ?_⟩
  · intro n resolve imports ws name u h hu
    unfold open_import
    rw [openGo_cons_mem imports [] h hu, openGo_nil]
  · intro n resolve imports ws name
    exact (openGo resolve imports ws [name]).property
  · intro n resolve imports ws uri
    exact (openGo resolve imports (insert uri ws) (imports uri)).property
  · unfold openW
    rw [show importsEx 0 = ["b.proto"] from by decide]
    rw [openGo_cons_new importsEx []
      (show resolveEx "b.proto" = some 1 from by decide)
      (show (1 : Fin 2) ∉ insert 0 (∅ : Finset (Fin 2)) from by decide)]
    rw [show importsEx 1 = ["a.proto"] from by decide]
    rw [openGo_cons_mem importsEx []
      (show resolveEx "a.proto" = some 0 from by decide)
      (show (0 : Fin 2) ∈ insert 1 (insert 0 (∅ : Finset (Fin 2))) from by decide)]
    rw [openGo_nil, openGo_nil]
    decide

/-- C8 witness: the early-return conjunct at a concrete input — a resolved,
already-loaded import leaves the workspace unchanged. -/
theorem c8_witness :
    open_import resolveEx importsEx {0, 1} "a.proto" = {0, 1} :=
  c8_open_import_terminates.1 resolveEx importsEx {0, 1} "a.proto" 0
    (by decide) (by decide)

/-- C10: `Workspace::open` is not atomic with respect to the diagnostics
result — the diagnostics value is computed first and returned last, and the
insertions (the opened file and its transitively resolvable imports) happen
unconditionally in between, so when diagnostics fail the resulting workspace
map is identical to that of a successful open, the new file is present, and
the error is propagated. -/
theorem c10_open_state_independent_of_diags :
    ∀ {n : Nat} {E D : Type} (resolve : String → Option (Fin n))
      (imports : Fin n → List String) (e : E) (d : D) (ws : Finset (Fin n))
      (uri : Fin n),
      (openWithDiags resolve imports (Except.error e : Except E D) ws uri).2
        = (openWithDiags resolve imports (Except.ok d : Except E D) ws uri).2
      ∧ (openWithDiags resolve imports (Except.error e : Except E D) ws uri).1
        = Except.error e
      ∧ uri ∈ (openWithDiags resolve imports (Except.error e : Except E D) ws uri).2
      ∧ (openWithDiags resolve imports (Except.error e : Except E D) ws uri).2
        = openW resolve imports ws uri := by
  intro n E D resolve imports e d ws uri
  refine ⟨rfl, rfl, ?_, rfl⟩
  exact (openGo resolve imports (insert uri ws) (imports uri)).property
    (Finset.mem_insert_self uri ws)
